import Mathlib

/-!
# Verification of `threeML/utils/binner.py`

A shallow embedding of the two binning components of the repository:

* `Rebinner` — merges adjacent elements of a reference sequence into
  variable-width bins until each bin accumulates at least
  `min_value_per_bin`, honouring an optional boolean mask, and then
  aggregates companion sequences over the computed bins
  (`rebin`, `rebin_errors`).
* `TemporalBinner` — derives bin boundaries for a sequence of event
  arrival times, either at constant width (`bin_by_constanst`, the
  source's spelling) or adaptively against an injected significance
  evaluator (`bin_by_significance`).

Numeric values are modelled with `ℚ` (exact arithmetic in place of the
source's floating point); Python exceptions are modelled with
`Except`/`Option` codomains.  Index sequences stay in `ℕ`.
-/

namespace ThreeML

/-- Sum of `x[a:b]` (Python slice semantics: half-open, out-of-range
indices contribute nothing because `getD` defaults to `0` only for
indices past the end; all uses keep `b ≤ x.length`). -/
def sliceSum (x : List ℚ) (a b : ℕ) : ℚ :=
  ((List.range' a (b - a)).map (fun j => x.getD j 0)).sum

/-- Sum of squares of `x[a:b]`, the quantity under the square root in
`Rebinner.rebin_errors`. -/
def sliceSumSq (x : List ℚ) (a b : ℕ) : ℚ :=
  ((List.range' a (b - a)).map (fun j => (x.getD j 0) ^ 2)).sum

/-- Sum of the elements of `x` at mask-`true` indices below `k`. -/
def maskedSumUpTo (mask : List Bool) (x : List ℚ) (k : ℕ) : ℚ :=
  ((List.range k).map (fun j => if mask.getD j false then x.getD j 0 else 0)).sum

/-- Model of `np.sum(vector_a[mask])`: sum of the elements selected by the
boolean mask (mask and vector have equal length at every use site). -/
def maskedSum (mask : List Bool) (x : List ℚ) : ℚ :=
  maskedSumUpTo mask x mask.length

/-- The mutable loop state of `Rebinner.__init__` (source lines 41–44):
the accumulated `self._starts`, `self._stops`, the running accumulator
`n` and the `bin_open` flag. -/
structure BinState where
  starts : List ℕ
  stops : List ℕ
  n : ℚ
  bin_open : Bool
deriving DecidableEq

/-- One iteration of the `for index, b in enumerate(vector_to_rebin_on)`
loop of `Rebinner.__init__` (source lines 46–86): a masked-out element
closes an open bin at `stop = index`; a masked-in element opens a bin if
none is open, accumulates `n += b`, and closes at `stop = index + 1`
once `n >= min_value_per_bin`. -/
def rebinStep (min_value_per_bin : ℚ) (s : BinState) (index : ℕ) (b : ℚ)
    (mk : Bool) : BinState :=
  if !mk then
    if !s.bin_open then s
    else { s with stops := s.stops ++ [index], n := 0, bin_open := false }
  else
    let s1 :=
      if !s.bin_open then
        { s with bin_open := true, starts := s.starts ++ [index], n := 0 }
      else s
    let n' := s1.n + b
    if min_value_per_bin ≤ n' then
      { s1 with stops := s1.stops ++ [index + 1], n := 0, bin_open := false }
    else
      { s1 with n := n' }

/-- The loop state after processing indices `0, …, k-1`; `k = v.length`
is the state at the end of the `for` loop. -/
def stateAt (min_value_per_bin : ℚ) (v : List ℚ) (mask : List Bool) (k : ℕ) :
    BinState :=
  (List.range k).foldl
    (fun s index =>
      rebinStep min_value_per_bin s index (v.getD index 0) (mask.getD index false))
    ⟨[], [], 0, false⟩

/-- The `starts`/`stops` computed by `Rebinner.__init__` (loop plus the
trailing close at `len(vector_to_rebin_on)` of source lines 90–91). -/
def rebinnerBins (v : List ℚ) (min_value_per_bin : ℚ) (mask : List Bool) :
    List ℕ × List ℕ :=
  let s := stateAt min_value_per_bin v mask v.length
  if s.bin_open then (s.starts, s.stops ++ [v.length]) else (s.starts, s.stops)

/-- The exceptions `Rebinner.__init__` can raise: `NotEnoughData`
(source line 23) and the `AssertionError` for a mask of the wrong
length (source line 30). -/
inductive RebinError where
  | notEnoughData
  | maskShapeMismatch
deriving DecidableEq

/-- A constructed `Rebinner`: its mask, bin boundaries and threshold. -/
structure Rebinner where
  mask : List Bool
  starts : List ℕ
  stops : List ℕ
  min_value_per_bin : ℚ

/-- Model of `Rebinner.__init__` (source lines 16–96): raise `NotEnoughData` when
the vector's total is below `min_value_per_bin`; then validate (or
default) the mask; then run the binning loop and close a trailing open
bin at the end of the vector. -/
def mkRebinner (vector_to_rebin_on : List ℚ) (min_value_per_bin : ℚ)
    (maskOpt : Option (List Bool)) : Except RebinError Rebinner :=
  if vector_to_rebin_on.sum < min_value_per_bin then
    .error .notEnoughData
  else
    match maskOpt with
    | some mask =>
      if mask.length = vector_to_rebin_on.length then
        let bs := rebinnerBins vector_to_rebin_on min_value_per_bin mask
        .ok ⟨mask, bs.1, bs.2, min_value_per_bin⟩
      else .error .maskShapeMismatch
    | none =>
      let mask := List.replicate vector_to_rebin_on.length true
      let bs := rebinnerBins vector_to_rebin_on min_value_per_bin mask
      .ok ⟨mask, bs.1, bs.2, min_value_per_bin⟩

/-- Model of `Rebinner.n_bins` (source lines 98–106). -/
def Rebinner.n_bins (r : Rebinner) : ℕ := r.starts.length

/-- The per-bin aggregates computed inside `Rebinner.rebin` for one
companion vector (source lines 120–124): one slice sum per bin. -/
def rebinAggregates (r : Rebinner) (vector : List ℚ) : List ℚ :=
  (r.starts.zip r.stops).map fun p => sliceSum vector p.1 p.2

/-- Model of `Rebinner.rebin` for one companion vector (source lines 108–133):
length check, per-bin slice sums, then the sum-preservation assertion
`abs(sum(rebinned)/sum(vector[mask]) - 1) < 1e-4`.  In the source the
division is IEEE, so a zero masked total yields `nan`/`inf` and the
assertion fails; in this exact model that is rendered as the explicit
conjunct `maskedSum ≠ 0`.  A failed assertion returns `none`. -/
def rebin (r : Rebinner) (vector : List ℚ) : Option (List ℚ) :=
  if vector.length = r.mask.length then
    let rebinned_vector := rebinAggregates r vector
    if maskedSum r.mask vector ≠ 0 ∧
        |rebinned_vector.sum / maskedSum r.mask vector - 1| < 1 / 10000 then
      some rebinned_vector
    else none
  else none

/-- Model of `Rebinner.rebin_errors` for one companion vector (source lines
135–162): length check, then per bin `sqrt(sum(vector[low:hi] ** 2))`;
no sum-preservation assertion. -/
noncomputable def rebin_errors (r : Rebinner) (vector : List ℚ) :
    Option (List ℝ) :=
  if vector.length = r.mask.length then
    some ((r.starts.zip r.stops).map fun p => Real.sqrt (sliceSumSq vector p.1 p.2))
  else none

/-- The failure a `TemporalBinner` method can hit: in the source an
`IndexError` when `arrival_times[0]` (or `[-1]`) is read from an empty
sequence.  `TemporalBinner.__init__` itself has no raise path. -/
inductive TemporalBinnerError where
  | emptyArrivalTimes
deriving DecidableEq

/-- A `TemporalBinner`: holds the arrival-time sequence. -/
structure TemporalBinner where
  arrival_times : List ℚ
deriving DecidableEq

/-- Model of `TemporalBinner.__init__` (source lines 218–220): it merely stores
the supplied arrival times.  The `Except` codomain records that the
constructor body contains no raise path at all: every input, the empty
sequence included, yields `.ok`. -/
def mkTemporalBinner (arrival_times : List ℚ) :
    Except TemporalBinnerError TemporalBinner :=
  .ok ⟨arrival_times⟩

/-- Model of `np.arange(a, b, step)` over exact rationals, for the use in
`bin_by_constanst`: the values `a + k * step` for
`0 ≤ k < ⌈(b - a) / step⌉` (empty when the ceiling is not positive). -/
def arange (a b step : ℚ) : List ℚ :=
  (List.range (⌈(b - a) / step⌉.toNat)).map fun k : ℕ => a + (k : ℚ) * step

/-- Model of `TemporalBinner.bin_by_constanst` (source lines 303–313, keeping the
source's spelling): `tmp = arange(first, last, dt)`, `starts = tmp`,
`stops = tmp + dt`.  Reading `arrival_times[0]`/`[-1]` from an empty
sequence is an `IndexError`, rendered as `.error`. -/
def bin_by_constanst (tb : TemporalBinner) (dt : ℚ) :
    Except TemporalBinnerError (List ℚ × List ℚ) :=
  match tb.arrival_times with
  | [] => .error .emptyArrivalTimes
  | t0 :: rest =>
    let tmp := arange t0 ((t0 :: rest).getLastD 0) dt
    .ok (tmp, tmp.map (· + dt))

/-- The mutable state of the `bin_by_significance` scan (source lines
251–256): accumulated `starts`/`stops`, the running `total_counts` and
the current window start `current_start`. -/
structure SigState where
  starts : List ℚ
  stops : List ℚ
  total_counts : ℕ
  current_start : ℚ
deriving DecidableEq

/-- The significance computed for the current window (source lines
270–285): query the background getter, then apply the injected
evaluator — the Gaussian-background variant when an error getter is
supplied, the plain Li&Ma variant otherwise.  The two evaluators
(`Significance(...).li_and_ma()[0]` and
`...li_and_ma_equivalent_for_gaussian_background(e)[0]`) live outside
this file's source and are opaque parameters here. -/
def computeSigma (li_and_ma : ℕ → ℚ → ℚ) (li_and_ma_gauss : ℕ → ℚ → ℚ → ℚ)
    (background_getter : ℚ → ℚ → ℚ)
    (background_error_getter : Option (ℚ → ℚ → ℚ))
    (current_start t : ℚ) (total_counts : ℕ) : ℚ :=
  let bkg := background_getter current_start t
  match background_error_getter with
  | some eg => li_and_ma_gauss total_counts bkg (eg current_start t)
  | none => li_and_ma total_counts bkg

/-- One iteration of the `for i, time in enumerate(self._arrival_times)`
loop of `bin_by_significance` (source lines 259–299): increment
`total_counts`; below `min_counts` do nothing further; otherwise compute
the significance and, once it reaches `sigma_level`, emit the bin
`(current_start, time)` and reset `current_start`/`total_counts`. -/
def sigStep (li_and_ma : ℕ → ℚ → ℚ) (li_and_ma_gauss : ℕ → ℚ → ℚ → ℚ)
    (background_getter : ℚ → ℚ → ℚ)
    (background_error_getter : Option (ℚ → ℚ → ℚ))
    (sigma_level : ℚ) (min_counts : ℕ) (s : SigState) (t : ℚ) : SigState :=
  let tc := s.total_counts + 1
  if tc < min_counts then { s with total_counts := tc }
  else
    let sigma := computeSigma li_and_ma li_and_ma_gauss background_getter
      background_error_getter s.current_start t tc
    if sigma_level ≤ sigma then
      { starts := s.starts ++ [s.current_start], stops := s.stops ++ [t],
        total_counts := 0, current_start := t }
    else { s with total_counts := tc }

/-- The trigger condition of one `sigStep`: the incremented count has
reached `min_counts` and the computed significance has reached
`sigma_level`.  Exactly when it holds, the step closes a bin. -/
def sigTrigger (li_and_ma : ℕ → ℚ → ℚ) (li_and_ma_gauss : ℕ → ℚ → ℚ → ℚ)
    (background_getter : ℚ → ℚ → ℚ)
    (background_error_getter : Option (ℚ → ℚ → ℚ))
    (sigma_level : ℚ) (min_counts : ℕ) (s : SigState) (t : ℚ) : Prop :=
  min_counts ≤ s.total_counts + 1 ∧
    sigma_level ≤ computeSigma li_and_ma li_and_ma_gauss background_getter
      background_error_getter s.current_start t (s.total_counts + 1)

/-- Model of `TemporalBinner.bin_by_significance` (source lines 238–301): scan
all arrival times (the first one included) from the state
`total_counts = 0`, `current_start = arrival_times[0]`, and return the
accumulated `starts`/`stops` — nothing is appended after the scan.
Reading `arrival_times[0]` from an empty sequence is an `IndexError`,
rendered as `.error`. -/
def bin_by_significance (li_and_ma : ℕ → ℚ → ℚ)
    (li_and_ma_gauss : ℕ → ℚ → ℚ → ℚ) (background_getter : ℚ → ℚ → ℚ)
    (background_error_getter : Option (ℚ → ℚ → ℚ))
    (sigma_level : ℚ) (min_counts : ℕ) (tb : TemporalBinner) :
    Except TemporalBinnerError (List ℚ × List ℚ) :=
  match tb.arrival_times with
  | [] => .error .emptyArrivalTimes
  | t0 :: rest =>
    let fin := (t0 :: rest).foldl
      (sigStep li_and_ma li_and_ma_gauss background_getter
        background_error_getter sigma_level min_counts)
      ⟨[], [], 0, t0⟩
    .ok (fin.starts, fin.stops)

/-! ## Helper lemmas about slices, masked sums and zips -/

theorem sliceSum_single (x : List ℚ) (k : ℕ) : sliceSum x k (k + 1) = x.getD k 0 := by
  simp [sliceSum]

theorem sliceSum_extend (x : List ℚ) (a k : ℕ) (h : a ≤ k) :
    sliceSum x a (k + 1) = sliceSum x a k + x.getD k 0 := by
  unfold sliceSum
  rw [show k + 1 - a = (k - a) + 1 by omega, List.range'_concat]
  simp [Nat.add_sub_cancel' h]

theorem maskedSumUpTo_succ (mask : List Bool) (x : List ℚ) (k : ℕ) :
    maskedSumUpTo mask x (k + 1) =
      maskedSumUpTo mask x k + if mask.getD k false then x.getD k 0 else 0 := by
  unfold maskedSumUpTo
  rw [List.range_succ]
  simp

theorem zip_concat_left {α β : Type} (l₁ : List α) (l₂ : List β) (a : α)
    (h : l₁.length = l₂.length) : (l₁ ++ [a]).zip l₂ = l₁.zip l₂ := by
  rw [show l₂ = l₂ ++ [] by simp, List.zip_append h]
  simp

theorem zip_concat_both {α β : Type} (l₁ : List α) (l₂ : List β) (a : α) (b : β)
    (h : l₁.length = l₂.length) :
    (l₁ ++ [a]).zip (l₂ ++ [b]) = l₁.zip l₂ ++ [(a, b)] := by
  rw [List.zip_append h]
  rfl

/-! ## The loop invariant of `Rebinner.__init__` -/

/-- The bins already closed by the loop: `starts` paired with `stops`
(an open bin's start, having no stop yet, is dropped by `zip`). -/
def BinState.cb (s : BinState) : List (ℕ × ℕ) := s.starts.zip s.stops

/-- Invariant of the binning loop after processing indices `0 … k-1`:
closed bins are nonempty, bounded by `k`, fully mask-`true`, above
threshold unless closed by a mask gap, and ordered; an open bin is
described by its start `a`, its accumulator, and the fact that it is
still under threshold; every mask-`true` index below `k` lies in the
closed bins or the open bin, and slice sums over the bins add up to the
masked sum, for every companion sequence. -/
structure LoopInv (m : ℚ) (v : List ℚ) (mask : List Bool) (k : ℕ) (s : BinState) :
    Prop where
  hwf : ∀ p ∈ s.cb, p.1 < p.2 ∧ p.2 ≤ k
  hmask : ∀ p ∈ s.cb, ∀ j, p.1 ≤ j → j < p.2 → mask.getD j false = true
  hthresh : ∀ p ∈ s.cb, m ≤ sliceSum v p.1 p.2 ∨ mask.getD p.2 false = false
  hpair : s.cb.Pairwise fun p q => p.2 ≤ q.1
  hclosed : s.bin_open = false → s.starts.length = s.stops.length
  hopen : s.bin_open = true →
    ∃ pre a, s.starts = pre ++ [a] ∧ pre.length = s.stops.length ∧ a < k ∧
      (∀ j, a ≤ j → j < k → mask.getD j false = true) ∧
      s.n = sliceSum v a k ∧ s.n < m ∧
      ∀ p ∈ s.cb, p.2 ≤ a
  hcover : ∀ j, j < k →
    (mask.getD j false = true ↔
      (∃ p ∈ s.cb, p.1 ≤ j ∧ j < p.2) ∨
        (s.bin_open = true ∧ s.starts.getLastD 0 ≤ j))
  hsum : ∀ x : List ℚ,
    (s.cb.map fun p => sliceSum x p.1 p.2).sum
        + (if s.bin_open then sliceSum x (s.starts.getLastD 0) k else 0)
      = maskedSumUpTo mask x k

theorem loopInv_zero (m : ℚ) (v : List ℚ) (mask : List Bool) :
    LoopInv m v mask 0 ⟨[], [], 0, false⟩ := by
  constructor <;> simp [BinState.cb, maskedSumUpTo]

/-- Step preservation, masked-out element, no open bin: the state is
unchanged. -/
theorem loopInv_step_ff (m : ℚ) (v : List ℚ) (mask : List Bool) (k : ℕ)
    (s : BinState) (inv : LoopInv m v mask k s)
    (hmk : mask.getD k false = false) (hbo : s.bin_open = false) :
    LoopInv m v mask (k + 1) (rebinStep m s k (v.getD k 0) false) := by
  obtain ⟨starts, stops, n, bo⟩ := s
  dsimp only at hbo
  subst hbo
  have hstep : rebinStep m ⟨starts, stops, n, false⟩ k (v.getD k 0) false =
      ⟨starts, stops, n, false⟩ := by
    simp [rebinStep]
  rw [hstep]
  constructor
  · exact fun p hp => ⟨(inv.hwf p hp).1, Nat.le_succ_of_le (inv.hwf p hp).2⟩
  · exact inv.hmask
  · exact inv.hthresh
  · exact inv.hpair
  · exact inv.hclosed
  · intro h; cases h
  · intro j hj
    rcases Nat.lt_succ_iff_lt_or_eq.mp hj with hj | rfl
    · exact inv.hcover j hj
    · constructor
      · intro h; rw [hmk] at h; cases h
      · rintro (⟨p, hp, hp1, hp2⟩ | ⟨hbo', _⟩)
        · have := (inv.hwf p hp).2
          exact absurd hp2 (by omega)
        · cases hbo'
  · intro x
    have hx := inv.hsum x
    rw [maskedSumUpTo_succ, hmk]
    simpa using hx

/-- Step preservation, masked-out element, open bin: the bin is closed
at `stop = k`, under threshold, with the masked-out index `k` as the
recorded reason. -/
theorem loopInv_step_ft (m : ℚ) (v : List ℚ) (mask : List Bool) (k : ℕ)
    (s : BinState) (inv : LoopInv m v mask k s)
    (hmk : mask.getD k false = false) (hbo : s.bin_open = true) :
    LoopInv m v mask (k + 1) (rebinStep m s k (v.getD k 0) false) := by
  obtain ⟨pre, a, hpre, hlen, hak, hmsk, hn, hnm, hbound⟩ := inv.hopen hbo
  obtain ⟨starts, stops, n, bo⟩ := s
  dsimp only at hbo hpre hlen hn ⊢
  subst hbo
  have hstep : rebinStep m ⟨starts, stops, n, true⟩ k (v.getD k 0) false =
      ⟨starts, stops ++ [k], 0, false⟩ := by
    simp [rebinStep]
  rw [hstep]
  have hcb : BinState.cb ⟨starts, stops, n, true⟩ = pre.zip stops := by
    rw [BinState.cb]
    dsimp only
    rw [hpre, zip_concat_left _ _ _ hlen]
  have hcbt : BinState.cb ⟨starts, stops ++ [k], 0, false⟩ =
      BinState.cb ⟨starts, stops, n, true⟩ ++ [(a, k)] := by
    rw [hcb, BinState.cb]
    dsimp only
    rw [hpre, zip_concat_both _ _ _ _ hlen]
  have hlast : starts.getLastD 0 = a := by rw [hpre, List.getLastD_concat]
  constructor
  · intro p hp
    rw [hcbt] at hp
    rcases List.mem_append.mp hp with hp | hp
    · exact ⟨(inv.hwf p hp).1, Nat.le_succ_of_le (inv.hwf p hp).2⟩
    · rw [List.mem_singleton] at hp
      subst hp
      exact ⟨hak, Nat.le_succ k⟩
  · intro p hp
    rw [hcbt] at hp
    rcases List.mem_append.mp hp with hp | hp
    · exact inv.hmask p hp
    · rw [List.mem_singleton] at hp
      subst hp
      exact fun j h1 h2 => hmsk j h1 h2
  · intro p hp
    rw [hcbt] at hp
    rcases List.mem_append.mp hp with hp | hp
    · exact inv.hthresh p hp
    · rw [List.mem_singleton] at hp
      subst hp
      exact Or.inr hmk
  · rw [hcbt]
    refine List.pairwise_append.mpr ⟨inv.hpair, List.pairwise_singleton _ _, ?_⟩
    intro p hp q hq
    rw [List.mem_singleton] at hq
    subst hq
    exact hbound p hp
  · intro _
    show starts.length = (stops ++ [k]).length
    rw [hpre]
    simp [hlen]
  · intro h; cases h
  · intro j hj
    rcases Nat.lt_succ_iff_lt_or_eq.mp hj with hj | rfl
    · constructor
      · intro h
        rcases (inv.hcover j hj).mp h with ⟨p, hp, h1, h2⟩ | ⟨_, hga⟩
        · exact Or.inl ⟨p, by rw [hcbt]; exact List.mem_append.mpr (Or.inl hp), h1, h2⟩
        · refine Or.inl ⟨(a, k), by rw [hcbt]; simp, ?_, hj⟩
          rwa [hlast] at hga
      · rintro (⟨p, hp, h1, h2⟩ | ⟨hbo', _⟩)
        · rw [hcbt] at hp
          rcases List.mem_append.mp hp with hp | hp
          · exact (inv.hcover j hj).mpr (Or.inl ⟨p, hp, h1, h2⟩)
          · rw [List.mem_singleton] at hp
            subst hp
            exact (inv.hcover j hj).mpr (Or.inr ⟨rfl, by rw [hlast]; exact h1⟩)
        · cases hbo'
    · constructor
      · intro h; rw [hmk] at h; cases h
      · rintro (⟨p, hp, hp1, hp2⟩ | ⟨hbo', _⟩)
        · rw [hcbt] at hp
          rcases List.mem_append.mp hp with hp | hp
          · have := hbound p hp
            exact absurd hp2 (by omega)
          · rw [List.mem_singleton] at hp
            subst hp
            exact absurd hp2 (by omega)
        · cases hbo'
  · intro x
    have hx := inv.hsum x
    rw [maskedSumUpTo_succ, hmk]
    simp only [BinState.cb] at hx ⊢
    rw [hpre] at hx ⊢
    rw [zip_concat_both _ _ _ _ hlen]
    rw [zip_concat_left _ _ _ hlen, List.getLastD_concat] at hx
    simp at hx ⊢
    linarith
/-- Step preservation, masked-in element, no open bin: a bin opens at
`k` and closes immediately at `k + 1` when the single value already
meets the threshold, otherwise stays open. -/
theorem loopInv_step_tf (m : ℚ) (v : List ℚ) (mask : List Bool) (k : ℕ)
    (s : BinState) (inv : LoopInv m v mask k s)
    (hmk : mask.getD k false = true) (hbo : s.bin_open = false) :
    LoopInv m v mask (k + 1) (rebinStep m s k (v.getD k 0) true) := by
  obtain ⟨starts, stops, n, bo⟩ := s
  dsimp only at hbo
  subst hbo
  have hlen0 : starts.length = stops.length := inv.hclosed rfl
  by_cases hthr : m ≤ v.getD k 0
  · have hstep : rebinStep m ⟨starts, stops, n, false⟩ k (v.getD k 0) true =
        ⟨starts ++ [k], stops ++ [k + 1], 0, false⟩ := by
      simp [rebinStep, hthr, -List.getD_eq_getElem?_getD]
    rw [hstep]
    have hcbt : BinState.cb ⟨starts ++ [k], stops ++ [k + 1], 0, false⟩ =
        starts.zip stops ++ [(k, k + 1)] := by
      rw [BinState.cb]
      dsimp only
      rw [zip_concat_both _ _ _ _ hlen0]
    constructor
    · intro p hp
      rw [hcbt] at hp
      rcases List.mem_append.mp hp with hp | hp
      · exact ⟨(inv.hwf p hp).1, Nat.le_succ_of_le (inv.hwf p hp).2⟩
      · rw [List.mem_singleton] at hp
        subst hp
        exact ⟨Nat.lt_succ_self k, le_refl (k + 1)⟩
    · intro p hp
      rw [hcbt] at hp
      rcases List.mem_append.mp hp with hp | hp
      · exact inv.hmask p hp
      · rw [List.mem_singleton] at hp
        subst hp
        intro j h1 h2
        have hjk : j = k := by omega
        rw [hjk]
        exact hmk
    · intro p hp
      rw [hcbt] at hp
      rcases List.mem_append.mp hp with hp | hp
      · exact inv.hthresh p hp
      · rw [List.mem_singleton] at hp
        subst hp
        exact Or.inl (by rw [sliceSum_single]; exact hthr)
    · rw [hcbt]
      refine List.pairwise_append.mpr ⟨inv.hpair, List.pairwise_singleton _ _, ?_⟩
      intro p hp q hq
      rw [List.mem_singleton] at hq
      subst hq
      exact (inv.hwf p hp).2
    · intro _
      show (starts ++ [k]).length = (stops ++ [k + 1]).length
      simp [hlen0]
    · intro h; cases h
    · intro j hj
      rcases Nat.lt_succ_iff_lt_or_eq.mp hj with hj | hjk
      · constructor
        · intro h
          rcases (inv.hcover j hj).mp h with ⟨p, hp, h1, h2⟩ | ⟨hbo', _⟩
          · exact Or.inl ⟨p, by rw [hcbt]; exact List.mem_append.mpr (Or.inl hp), h1, h2⟩
          · cases hbo'
        · rintro (⟨p, hp, h1, h2⟩ | ⟨hbo', _⟩)
          · rw [hcbt] at hp
            rcases List.mem_append.mp hp with hp | hp
            · exact (inv.hcover j hj).mpr (Or.inl ⟨p, hp, h1, h2⟩)
            · rw [List.mem_singleton] at hp
              subst hp
              exact absurd h1 (by omega)
          · cases hbo'
      · rw [hjk]
        exact ⟨fun _ => Or.inl ⟨(k, k + 1), by rw [hcbt]; simp, le_refl k, Nat.lt_succ_self k⟩,
          fun _ => hmk⟩
    · intro x
      have hx := inv.hsum x
      rw [maskedSumUpTo_succ, hmk]
      simp only [BinState.cb] at hx ⊢
      rw [zip_concat_both _ _ _ _ hlen0, List.map_append, List.sum_append]
      simp only [List.map_cons, List.map_nil, List.sum_cons, List.sum_nil]
      rw [sliceSum_single]
      simp at hx ⊢
      linarith
  · have hstep : rebinStep m ⟨starts, stops, n, false⟩ k (v.getD k 0) true =
        ⟨starts ++ [k], stops, v.getD k 0, true⟩ := by
      simp [rebinStep, hthr, -List.getD_eq_getElem?_getD]
    rw [hstep]
    have hcbt : BinState.cb ⟨starts ++ [k], stops, v.getD k 0, true⟩ =
        starts.zip stops := by
      rw [BinState.cb]
      dsimp only
      rw [zip_concat_left _ _ _ hlen0]
    constructor
    · intro p hp
      rw [hcbt] at hp
      exact ⟨(inv.hwf p hp).1, Nat.le_succ_of_le (inv.hwf p hp).2⟩
    · intro p hp
      rw [hcbt] at hp
      exact inv.hmask p hp
    · intro p hp
      rw [hcbt] at hp
      exact inv.hthresh p hp
    · rw [hcbt]
      exact inv.hpair
    · intro h; cases h
    · intro _
      refine ⟨starts, k, rfl, hlen0, Nat.lt_succ_self k, ?_, (sliceSum_single v k).symm,
        not_le.mp hthr, ?_⟩
      · intro j h1 h2
        have hjk : j = k := by omega
        rw [hjk]
        exact hmk
      · intro p hp
        rw [hcbt] at hp
        exact (inv.hwf p hp).2
    · intro j hj
      rcases Nat.lt_succ_iff_lt_or_eq.mp hj with hj | hjk
      · constructor
        · intro h
          rcases (inv.hcover j hj).mp h with ⟨p, hp, h1, h2⟩ | ⟨hbo', _⟩
          · exact Or.inl ⟨p, by rw [hcbt]; exact hp, h1, h2⟩
          · cases hbo'
        · rintro (⟨p, hp, h1, h2⟩ | ⟨_, hga⟩)
          · rw [hcbt] at hp
            exact (inv.hcover j hj).mpr (Or.inl ⟨p, hp, h1, h2⟩)
          · dsimp only at hga
            rw [List.getLastD_concat] at hga
            exact absurd hga (by omega)
      · rw [hjk]
        refine ⟨fun _ => Or.inr ⟨rfl, ?_⟩, fun _ => hmk⟩
        dsimp only
        rw [List.getLastD_concat]
    · intro x
      have hx := inv.hsum x
      rw [maskedSumUpTo_succ, hmk]
      simp only [BinState.cb] at hx ⊢
      rw [zip_concat_left _ _ _ hlen0, List.getLastD_concat, sliceSum_single]
      simp at hx ⊢
      linarith

/-- Step preservation, masked-in element, open bin: the accumulator
grows by `v[k]`; the bin closes at `k + 1` exactly when the threshold is
now met. -/
theorem loopInv_step_tt (m : ℚ) (v : List ℚ) (mask : List Bool) (k : ℕ)
    (s : BinState) (inv : LoopInv m v mask k s)
    (hmk : mask.getD k false = true) (hbo : s.bin_open = true) :
    LoopInv m v mask (k + 1) (rebinStep m s k (v.getD k 0) true) := by
  obtain ⟨pre, a, hpre, hlen, hak, hmsk, hn, hnm, hbound⟩ := inv.hopen hbo
  obtain ⟨starts, stops, n, bo⟩ := s
  dsimp only at hbo hpre hlen hn hnm ⊢
  subst hbo
  have hcb : BinState.cb ⟨starts, stops, n, true⟩ = pre.zip stops := by
    rw [BinState.cb]
    dsimp only
    rw [hpre, zip_concat_left _ _ _ hlen]
  have hlast : starts.getLastD 0 = a := by rw [hpre, List.getLastD_concat]
  have hak' : a ≤ k := le_of_lt hak
  have hextv : sliceSum v a (k + 1) = sliceSum v a k + v.getD k 0 :=
    sliceSum_extend v a k hak'
  by_cases hthr : m ≤ n + v.getD k 0
  · have hstep : rebinStep m ⟨starts, stops, n, true⟩ k (v.getD k 0) true =
        ⟨starts, stops ++ [k + 1], 0, false⟩ := by
      simp [rebinStep, hthr, -List.getD_eq_getElem?_getD]
    rw [hstep]
    have hcbt : BinState.cb ⟨starts, stops ++ [k + 1], 0, false⟩ =
        pre.zip stops ++ [(a, k + 1)] := by
      rw [BinState.cb]
      dsimp only
      rw [hpre, zip_concat_both _ _ _ _ hlen]
    have hbin : m ≤ sliceSum v a (k + 1) := by
      rw [hextv, ← hn]
      exact hthr
    constructor
    · intro p hp
      rw [hcbt] at hp
      rcases List.mem_append.mp hp with hp | hp
      · rw [← hcb] at hp
        exact ⟨(inv.hwf p hp).1, Nat.le_succ_of_le (inv.hwf p hp).2⟩
      · rw [List.mem_singleton] at hp
        subst hp
        exact ⟨by omega, le_refl _⟩
    · intro p hp
      rw [hcbt] at hp
      rcases List.mem_append.mp hp with hp | hp
      · rw [← hcb] at hp
        exact inv.hmask p hp
      · rw [List.mem_singleton] at hp
        subst hp
        intro j h1 h2
        by_cases hjk : j < k
        · exact hmsk j h1 hjk
        · have hje : j = k := by omega
          rw [hje]
          exact hmk
    · intro p hp
      rw [hcbt] at hp
      rcases List.mem_append.mp hp with hp | hp
      · rw [← hcb] at hp
        exact inv.hthresh p hp
      · rw [List.mem_singleton] at hp
        subst hp
        exact Or.inl hbin
    · rw [hcbt, ← hcb]
      refine List.pairwise_append.mpr ⟨inv.hpair, List.pairwise_singleton _ _, ?_⟩
      intro p hp q hq
      rw [List.mem_singleton] at hq
      subst hq
      exact hbound p hp
    · intro _
      show starts.length = (stops ++ [k + 1]).length
      rw [hpre]
      simp [hlen]
    · intro h; cases h
    · intro j hj
      rcases Nat.lt_succ_iff_lt_or_eq.mp hj with hj | hjk
      · constructor
        · intro h
          rcases (inv.hcover j hj).mp h with ⟨p, hp, h1, h2⟩ | ⟨_, hga⟩
          · rw [hcb] at hp
            exact Or.inl ⟨p, by rw [hcbt]; exact List.mem_append.mpr (Or.inl hp), h1, h2⟩
          · dsimp only at hga
            rw [hlast] at hga
            exact Or.inl ⟨(a, k + 1), by rw [hcbt]; simp, hga, by omega⟩
        · rintro (⟨p, hp, h1, h2⟩ | ⟨hbo', _⟩)
          · rw [hcbt] at hp
            rcases List.mem_append.mp hp with hp | hp
            · rw [← hcb] at hp
              exact (inv.hcover j hj).mpr (Or.inl ⟨p, hp, h1, h2⟩)
            · rw [List.mem_singleton] at hp
              subst hp
              exact (inv.hcover j hj).mpr (Or.inr ⟨rfl, by rw [hlast]; exact h1⟩)
          · cases hbo'
      · rw [hjk]
        exact ⟨fun _ => Or.inl ⟨(a, k + 1), by rw [hcbt]; simp, hak', Nat.lt_succ_self k⟩,
          fun _ => hmk⟩
    · intro x
      have hx := inv.hsum x
      rw [maskedSumUpTo_succ, hmk]
      simp only [BinState.cb] at hx ⊢
      rw [hpre, zip_concat_both _ _ _ _ hlen, List.map_append, List.sum_append]
      rw [hpre, zip_concat_left _ _ _ hlen, List.getLastD_concat] at hx
      simp only [List.map_cons, List.map_nil, List.sum_cons, List.sum_nil]
      rw [sliceSum_extend x a k hak']
      simp at hx ⊢
      linarith
  · have hstep : rebinStep m ⟨starts, stops, n, true⟩ k (v.getD k 0) true =
        ⟨starts, stops, n + v.getD k 0, true⟩ := by
      simp [rebinStep, hthr, -List.getD_eq_getElem?_getD]
    rw [hstep]
    have hcbt : BinState.cb ⟨starts, stops, n + v.getD k 0, true⟩ =
        pre.zip stops := by
      rw [BinState.cb]
      dsimp only
      rw [hpre, zip_concat_left _ _ _ hlen]
    constructor
    · intro p hp
      rw [hcbt, ← hcb] at hp
      exact ⟨(inv.hwf p hp).1, Nat.le_succ_of_le (inv.hwf p hp).2⟩
    · intro p hp
      rw [hcbt, ← hcb] at hp
      exact inv.hmask p hp
    · intro p hp
      rw [hcbt, ← hcb] at hp
      exact inv.hthresh p hp
    · rw [hcbt, ← hcb]
      exact inv.hpair
    · intro h; cases h
    · intro _
      refine ⟨pre, a, hpre, hlen, by omega, ?_, ?_, not_le.mp hthr, ?_⟩
      · intro j h1 h2
        by_cases hjk : j < k
        · exact hmsk j h1 hjk
        · have hje : j = k := by omega
          rw [hje]
          exact hmk
      · show n + v.getD k 0 = sliceSum v a (k + 1)
        rw [hextv, hn]
      · intro p hp
        rw [hcbt, ← hcb] at hp
        exact hbound p hp
    · intro j hj
      rcases Nat.lt_succ_iff_lt_or_eq.mp hj with hj | hjk
      · constructor
        · intro h
          rcases (inv.hcover j hj).mp h with ⟨p, hp, h1, h2⟩ | ⟨_, hga⟩
          · rw [hcb] at hp
            exact Or.inl ⟨p, by rw [hcbt]; exact hp, h1, h2⟩
          · exact Or.inr ⟨rfl, hga⟩
        · rintro (⟨p, hp, h1, h2⟩ | ⟨_, hga⟩)
          · rw [hcbt, ← hcb] at hp
            exact (inv.hcover j hj).mpr (Or.inl ⟨p, hp, h1, h2⟩)
          · exact (inv.hcover j hj).mpr (Or.inr ⟨rfl, hga⟩)
      · rw [hjk]
        refine ⟨fun _ => Or.inr ⟨rfl, ?_⟩, fun _ => hmk⟩
        dsimp only
        rw [hlast]
        exact hak'
    · intro x
      have hx := inv.hsum x
      rw [maskedSumUpTo_succ, hmk]
      simp only [BinState.cb] at hx ⊢
      rw [hpre, zip_concat_left _ _ _ hlen, List.getLastD_concat]
      rw [hpre, zip_concat_left _ _ _ hlen, List.getLastD_concat] at hx
      rw [sliceSum_extend x a k hak']
      simp at hx ⊢
      linarith
/-- The loop invariant holds at every prefix of the
`Rebinner.__init__` loop. -/
theorem loopInv_stateAt (m : ℚ) (v : List ℚ) (mask : List Bool) (k : ℕ) :
    LoopInv m v mask k (stateAt m v mask k) := by
  induction k with
  | zero => exact loopInv_zero m v mask
  | succ k ih =>
    have hsucc : stateAt m v mask (k + 1) =
        rebinStep m (stateAt m v mask k) k (v.getD k 0) (mask.getD k false) := by
      rw [stateAt, stateAt, List.range_succ, List.foldl_append]
      rfl
    rw [hsucc]
    cases hmk : mask.getD k false with
    | false =>
      cases hbo : (stateAt m v mask k).bin_open with
      | false => exact loopInv_step_ff m v mask k _ ih hmk hbo
      | true => exact loopInv_step_ft m v mask k _ ih hmk hbo
    | true =>
      cases hbo : (stateAt m v mask k).bin_open with
      | false => exact loopInv_step_tf m v mask k _ ih hmk hbo
      | true => exact loopInv_step_tt m v mask k _ ih hmk hbo

/-- The bins computed by `Rebinner.__init__`: well-formed, bounded,
mask-pure, above threshold unless cut short by a mask gap or the end of
the vector, ordered, covering exactly the masked-`true` indices, and
sum-preserving for every companion sequence. -/
theorem rebinnerBins_props (v : List ℚ) (m : ℚ) (mask : List Bool) :
    (rebinnerBins v m mask).1.length = (rebinnerBins v m mask).2.length ∧
    (∀ p ∈ (rebinnerBins v m mask).1.zip (rebinnerBins v m mask).2,
      p.1 < p.2 ∧ p.2 ≤ v.length) ∧
    (∀ p ∈ (rebinnerBins v m mask).1.zip (rebinnerBins v m mask).2,
      ∀ j, p.1 ≤ j → j < p.2 → mask.getD j false = true) ∧
    (∀ p ∈ (rebinnerBins v m mask).1.zip (rebinnerBins v m mask).2,
      p.2 < v.length → mask.getD p.2 false = true → m ≤ sliceSum v p.1 p.2) ∧
    ((rebinnerBins v m mask).1.zip (rebinnerBins v m mask).2).Pairwise
      (fun p q => p.2 ≤ q.1) ∧
    (∀ j, j < v.length → (mask.getD j false = true ↔
      ∃ p ∈ (rebinnerBins v m mask).1.zip (rebinnerBins v m mask).2,
        p.1 ≤ j ∧ j < p.2)) ∧
    (∀ x : List ℚ,
      (((rebinnerBins v m mask).1.zip (rebinnerBins v m mask).2).map
          (fun p => sliceSum x p.1 p.2)).sum = maskedSumUpTo mask x v.length) := by
  have inv := loopInv_stateAt m v mask v.length
  have hZ : rebinnerBins v m mask =
      if (stateAt m v mask v.length).bin_open then
        ((stateAt m v mask v.length).starts,
          (stateAt m v mask v.length).stops ++ [v.length])
      else ((stateAt m v mask v.length).starts, (stateAt m v mask v.length).stops) :=
    rfl
  rcases hsb : stateAt m v mask v.length with ⟨starts, stops, n, bo⟩
  rw [hsb] at hZ inv
  cases bo with
  | false =>
    have hbins : rebinnerBins v m mask = (starts, stops) := hZ.trans (by rfl)
    have hlen0 : starts.length = stops.length := inv.hclosed rfl
    have hcb : BinState.cb ⟨starts, stops, n, false⟩ = starts.zip stops := rfl
    rw [hbins]
    dsimp only
    refine ⟨hlen0, ?_, ?_, ?_, ?_, ?_, ?_⟩
    · intro p hp
      exact inv.hwf p hp
    · intro p hp
      exact inv.hmask p hp
    · intro p hp h1 h2
      rcases inv.hthresh p hp with h | h
      · exact h
      · rw [h] at h2
        cases h2
    · exact inv.hpair
    · intro j hj
      constructor
      · intro h
        rcases (inv.hcover j hj).mp h with ⟨p, hp, h1, h2⟩ | ⟨hbo', _⟩
        · exact ⟨p, hp, h1, h2⟩
        · cases hbo'
      · intro ⟨p, hp, h1, h2⟩
        exact (inv.hcover j hj).mpr (Or.inl ⟨p, hp, h1, h2⟩)
    · intro x
      have hx := inv.hsum x
      simpa using hx
  | true =>
    obtain ⟨pre, a, hpre, hlen, hak, hmsk, hn, hnm, hbound⟩ := inv.hopen rfl
    dsimp only at hpre hlen
    have hbins : rebinnerBins v m mask = (starts, stops ++ [v.length]) :=
      hZ.trans (by rfl)
    have hcb : BinState.cb ⟨starts, stops, n, true⟩ = pre.zip stops := by
      rw [BinState.cb]
      dsimp only
      rw [hpre, zip_concat_left _ _ _ hlen]
    have hzip : starts.zip (stops ++ [v.length]) = pre.zip stops ++ [(a, v.length)] := by
      rw [hpre, zip_concat_both _ _ _ _ hlen]
    have hlast : starts.getLastD 0 = a := by rw [hpre, List.getLastD_concat]
    rw [hbins]
    dsimp only
    rw [hzip]
    refine ⟨?_, ?_, ?_, ?_, ?_, ?_, ?_⟩
    · rw [hpre]
      simp [hlen]
    · intro p hp
      rcases List.mem_append.mp hp with hp | hp
      · rw [← hcb] at hp
        exact inv.hwf p hp
      · rw [List.mem_singleton] at hp
        subst hp
        exact ⟨hak, le_refl _⟩
    · intro p hp
      rcases List.mem_append.mp hp with hp | hp
      · rw [← hcb] at hp
        exact inv.hmask p hp
      · rw [List.mem_singleton] at hp
        subst hp
        exact fun j h1 h2 => hmsk j h1 h2
    · intro p hp h1 h2
      rcases List.mem_append.mp hp with hp | hp
      · rw [← hcb] at hp
        rcases inv.hthresh p hp with h | h
        · exact h
        · rw [h] at h2
          cases h2
      · rw [List.mem_singleton] at hp
        subst hp
        exact absurd h1 (by omega)
    · refine List.pairwise_append.mpr ⟨?_, List.pairwise_singleton _ _, ?_⟩
      · have := inv.hpair
        rwa [hcb] at this
      · intro p hp q hq
        rw [List.mem_singleton] at hq
        subst hq
        rw [← hcb] at hp
        exact hbound p hp
    · intro j hj
      constructor
      · intro h
        rcases (inv.hcover j hj).mp h with ⟨p, hp, h1, h2⟩ | ⟨_, hga⟩
        · rw [hcb] at hp
          exact ⟨p, List.mem_append.mpr (Or.inl hp), h1, h2⟩
        · dsimp only at hga
          rw [hlast] at hga
          exact ⟨(a, v.length), List.mem_append.mpr (Or.inr (by simp)), hga, hj⟩
      · intro ⟨p, hp, h1, h2⟩
        rcases List.mem_append.mp hp with hp | hp
        · rw [← hcb] at hp
          exact (inv.hcover j hj).mpr (Or.inl ⟨p, hp, h1, h2⟩)
        · rw [List.mem_singleton] at hp
          subst hp
          exact (inv.hcover j hj).mpr (Or.inr ⟨rfl, by rw [hlast]; exact h1⟩)
    · intro x
      have hx := inv.hsum x
      simp only [BinState.cb] at hx
      rw [hpre, zip_concat_left _ _ _ hlen, List.getLastD_concat] at hx
      simp only [List.map_append, List.sum_append, List.map_cons, List.map_nil,
        List.sum_cons, List.sum_nil]
      simp at hx
      linarith

/-- What a successful construction tells us: the stored mask has the
vector's length, the stored bins are the ones computed by
`rebinnerBins`, and the total was not below the threshold. -/
theorem mkRebinner_ok_spec {v : List ℚ} {m : ℚ} {mo : Option (List Bool)}
    {r : Rebinner} (h : mkRebinner v m mo = .ok r) :
    r.mask.length = v.length ∧
    r.starts = (rebinnerBins v m r.mask).1 ∧
    r.stops = (rebinnerBins v m r.mask).2 ∧
    r.min_value_per_bin = m ∧ ¬v.sum < m := by
  by_cases hs : v.sum < m
  · simp only [mkRebinner, if_pos hs] at h
    exact Except.noConfusion h
  · cases mo with
    | none =>
      simp only [mkRebinner, if_neg hs] at h
      injection h with h'
      subst h'
      exact ⟨by simp, rfl, rfl, rfl, hs⟩
    | some mask =>
      simp only [mkRebinner, if_neg hs] at h
      by_cases hl : mask.length = v.length
      · rw [if_pos hl] at h
        injection h with h'
        subst h'
        exact ⟨hl, rfl, rfl, rfl, hs⟩
      · rw [if_neg hl] at h
        exact Except.noConfusion h

/-- Concrete run: reference `[1,1,1,1,1,1]`, threshold `2`, no mask. -/
theorem eval_mk_nomask :
    mkRebinner [1, 1, 1, 1, 1, 1] 2 none =
      .ok ⟨List.replicate 6 true, [0, 2, 4], [2, 4, 6], 2⟩ := by
  norm_num [mkRebinner, rebinnerBins, stateAt, rebinStep, List.range_succ,
    List.replicate]

/-- Concrete run: same reference and threshold, mask `[T,T,F,T,T,T]`. -/
theorem eval_mk_mask :
    mkRebinner [1, 1, 1, 1, 1, 1] 2 (some [true, true, false, true, true, true]) =
      .ok ⟨[true, true, false, true, true, true], [0, 3, 5], [2, 5, 6], 2⟩ := by
  norm_num [mkRebinner, rebinnerBins, stateAt, rebinStep, List.range_succ]

/-- Concrete run: reference `[1,1,1,1]`, threshold `2`, mask `[T,F,T,T]`:
the mask gap at index 1 forces the first bin `[0,1)` closed with
accumulated value `1 < 2`, and a second bin `[2,4)` follows. -/
theorem eval_mk_gap :
    mkRebinner [1, 1, 1, 1] 2 (some [true, false, true, true]) =
      .ok ⟨[true, false, true, true], [0, 2], [1, 4], 2⟩ := by
  norm_num [mkRebinner, rebinnerBins, stateAt, rebinStep, List.range_succ]

/-- C4: on reference `[1,1,1,1,1,1]` with `min_value_per_bin = 2`,
construction with no mask yields exactly the bins `[0,2), [2,4), [4,6)`
and `n_bins = 3`; with mask `[T,T,F,T,T,T]` it yields exactly
`[0,2), [3,5), [5,6)`, the last bin being an under-threshold trailing
bin (its accumulated value is `1 < 2`). -/
theorem rebinner_concrete_examples :
    mkRebinner [1, 1, 1, 1, 1, 1] 2 none =
      .ok ⟨List.replicate 6 true, [0, 2, 4], [2, 4, 6], 2⟩ ∧
    Rebinner.n_bins ⟨List.replicate 6 true, [0, 2, 4], [2, 4, 6], 2⟩ = 3 ∧
    mkRebinner [1, 1, 1, 1, 1, 1] 2 (some [true, true, false, true, true, true]) =
      .ok ⟨[true, true, false, true, true, true], [0, 3, 5], [2, 5, 6], 2⟩ ∧
    sliceSum [1, 1, 1, 1, 1, 1] 5 6 < 2 :=
  ⟨eval_mk_nomask, rfl, eval_mk_mask, by norm_num [sliceSum, List.range'_succ]⟩

/-- C5: construction fails with `NotEnoughData` exactly when the
reference total is below `min_value_per_bin`; the check precedes mask
validation, so the equivalence holds for every `maskOpt`, a wrong-length
mask included. -/
theorem mkRebinner_notEnoughData_iff (v : List ℚ) (m : ℚ)
    (mo : Option (List Bool)) :
    mkRebinner v m mo = .error .notEnoughData ↔ v.sum < m := by
  constructor
  · intro h
    by_contra hs
    cases mo with
    | none =>
      simp only [mkRebinner, if_neg hs] at h
      exact Except.noConfusion h
    | some mask =>
      simp only [mkRebinner, if_neg hs] at h
      by_cases hl : mask.length = v.length
      · rw [if_pos hl] at h
        exact Except.noConfusion h
      · rw [if_neg hl] at h
        injection h with h'
        exact RebinError.noConfusion h'
  · intro h
    simp only [mkRebinner, if_pos h]

/-- C1: for every valid construction and every companion sequence of
matching length, the per-bin aggregates of `rebin` sum exactly to the
masked sum of the companion sequence (exact equality, hence within any
relative tolerance); whenever the masked sum is nonzero the
sum-preservation assertion therefore passes and `rebin` returns the
aggregates. -/
theorem rebin_sum_preserved (v : List ℚ) (m : ℚ) (mo : Option (List Bool))
    (r : Rebinner) (h : mkRebinner v m mo = .ok r) (x : List ℚ)
    (hx : x.length = v.length) :
    (rebinAggregates r x).sum = maskedSum r.mask x ∧
    (maskedSum r.mask x ≠ 0 → rebin r x = some (rebinAggregates r x)) := by
  obtain ⟨hml, hst, hsp, _, _⟩ := mkRebinner_ok_spec h
  have hsum : (rebinAggregates r x).sum = maskedSum r.mask x := by
    rw [rebinAggregates, hst, hsp, maskedSum, hml]
    exact (rebinnerBins_props v m r.mask).2.2.2.2.2.2 x
  refine ⟨hsum, fun h0 => ?_⟩
  have hcond : maskedSum r.mask x ≠ 0 ∧
      |(rebinAggregates r x).sum / maskedSum r.mask x - 1| < 1 / 10000 :=
    ⟨h0, by rw [hsum, div_self h0]; norm_num⟩
  simp only [rebin]
  rw [if_pos (hx.trans hml.symm), if_pos hcond]

/-- Witness for C1 at reference `[1,1,1,1,1,1]`, threshold `2`, no mask,
companion `[1,2,3,4,5,6]`. -/
theorem rebin_sum_preserved_witness :
    mkRebinner [1, 1, 1, 1, 1, 1] 2 none =
      .ok ⟨List.replicate 6 true, [0, 2, 4], [2, 4, 6], 2⟩ ∧
    ((rebinAggregates ⟨List.replicate 6 true, [0, 2, 4], [2, 4, 6], 2⟩
        [1, 2, 3, 4, 5, 6]).sum =
      maskedSum (List.replicate 6 true) [1, 2, 3, 4, 5, 6] ∧
    (maskedSum (List.replicate 6 true) [1, 2, 3, 4, 5, 6] ≠ 0 →
      rebin ⟨List.replicate 6 true, [0, 2, 4], [2, 4, 6], 2⟩ [1, 2, 3, 4, 5, 6] =
        some (rebinAggregates ⟨List.replicate 6 true, [0, 2, 4], [2, 4, 6], 2⟩
          [1, 2, 3, 4, 5, 6]))) :=
  ⟨eval_mk_nomask,
    rebin_sum_preserved [1, 1, 1, 1, 1, 1] 2 none _ eval_mk_nomask
      [1, 2, 3, 4, 5, 6] (by norm_num)⟩

/-- C2 counterexample: with reference `[1,1,1,1]`, threshold `2` and
mask `[T,F,T,T]` (total `4 ≥ 2`), construction yields the two bins
`[0,1)` and `[2,4)`; the first bin — not the last one — accumulates only
`1 < 2`, because the mask gap at index `1` forced it closed early. -/
theorem bin_threshold_counterexample :
    mkRebinner [1, 1, 1, 1] 2 (some [true, false, true, true]) =
      .ok ⟨[true, false, true, true], [0, 2], [1, 4], 2⟩ ∧
    Rebinner.n_bins ⟨[true, false, true, true], [0, 2], [1, 4], 2⟩ = 2 ∧
    sliceSum [1, 1, 1, 1] 0 1 < 2 :=
  ⟨eval_mk_gap, rfl, by norm_num [sliceSum, List.range'_succ]⟩

/-- C2 (amended): every bin whose stop index is neither the end of the
reference sequence nor a masked-out index accumulates at least
`min_value_per_bin`; the last bin, and bins forced closed by a mask gap
right after their stop, may stay under threshold. -/
theorem bin_threshold_unless_gap_or_last (v : List ℚ) (m : ℚ)
    (mo : Option (List Bool)) (r : Rebinner) (h : mkRebinner v m mo = .ok r)
    (p : ℕ × ℕ) (hp : p ∈ r.starts.zip r.stops) (hlt : p.2 < v.length)
    (hm : r.mask.getD p.2 false = true) : m ≤ sliceSum v p.1 p.2 := by
  obtain ⟨hml, hst, hsp, _, _⟩ := mkRebinner_ok_spec h
  rw [hst, hsp] at hp
  exact (rebinnerBins_props v m r.mask).2.2.2.1 p hp hlt hm

/-- Witness for the amended C2 at the no-mask example: the bin `[0,2)`
reaches the threshold `2`. -/
theorem bin_threshold_unless_gap_or_last_witness :
    mkRebinner [1, 1, 1, 1, 1, 1] 2 none =
      .ok ⟨List.replicate 6 true, [0, 2, 4], [2, 4, 6], 2⟩ ∧
    (2 : ℚ) ≤ sliceSum [1, 1, 1, 1, 1, 1] 0 2 :=
  ⟨eval_mk_nomask,
    bin_threshold_unless_gap_or_last [1, 1, 1, 1, 1, 1] 2 none _ eval_mk_nomask
      (0, 2) (by decide) (by decide) (by decide)⟩

/-- C3: for every valid construction the bins have matching
`starts`/`stops`, are nonempty half-open intervals inside the index
range, contain only masked-`true` indices, are ordered and disjoint, and
cover exactly the masked-`true` indices — each masked-`true` index lies
in exactly one bin. -/
theorem bins_partition_masked_indices (v : List ℚ) (m : ℚ)
    (mo : Option (List Bool)) (r : Rebinner) (h : mkRebinner v m mo = .ok r) :
    r.starts.length = r.stops.length ∧
    (∀ p ∈ r.starts.zip r.stops, p.1 < p.2 ∧ p.2 ≤ v.length) ∧
    (∀ p ∈ r.starts.zip r.stops, ∀ j, p.1 ≤ j → j < p.2 →
      r.mask.getD j false = true) ∧
    (r.starts.zip r.stops).Pairwise (fun p q => p.2 ≤ q.1) ∧
    (∀ j, j < v.length → (r.mask.getD j false = true ↔
      ∃ p ∈ r.starts.zip r.stops, p.1 ≤ j ∧ j < p.2)) ∧
    (∀ (j i₁ i₂ : ℕ) (h₁ : i₁ < (r.starts.zip r.stops).length)
      (h₂ : i₂ < (r.starts.zip r.stops).length),
      ((r.starts.zip r.stops).get ⟨i₁, h₁⟩).1 ≤ j →
      j < ((r.starts.zip r.stops).get ⟨i₁, h₁⟩).2 →
      ((r.starts.zip r.stops).get ⟨i₂, h₂⟩).1 ≤ j →
      j < ((r.starts.zip r.stops).get ⟨i₂, h₂⟩).2 → i₁ = i₂) := by
  obtain ⟨hml, hst, hsp, _, _⟩ := mkRebinner_ok_spec h
  obtain ⟨q1, q2, q3, _, q5, q6, _⟩ := rebinnerBins_props v m r.mask
  rw [← hst, ← hsp] at q1 q2 q3 q5 q6
  refine ⟨q1, q2, q3, q5, q6, ?_⟩
  · intro j i₁ i₂ h₁ h₂ ha1 hb1 ha2 hb2
    simp only [List.get_eq_getElem] at ha1 hb1 ha2 hb2
    rcases lt_trichotomy i₁ i₂ with hlt | heq | hlt
    · have hpq := List.pairwise_iff_getElem.mp q5 i₁ i₂ h₁ h₂ hlt
      omega
    · exact heq
    · have hpq := List.pairwise_iff_getElem.mp q5 i₂ i₁ h₂ h₁ hlt
      omega

/-- Witness for C3 at the no-mask example. -/
theorem bins_partition_masked_indices_witness :
    mkRebinner [1, 1, 1, 1, 1, 1] 2 none =
      .ok ⟨List.replicate 6 true, [0, 2, 4], [2, 4, 6], 2⟩ ∧
    ([0, 2, 4] : List ℕ).length = ([2, 4, 6] : List ℕ).length :=
  ⟨eval_mk_nomask,
    (bins_partition_masked_indices [1, 1, 1, 1, 1, 1] 2 none _ eval_mk_nomask).1⟩

/-- C6: for every valid construction and companion sequence of matching
length, `rebin_errors` always returns (there is no sum-preservation
assertion that could abort it) one value per bin, namely the square root
of the bin's sum of squares (quadrature combination). -/
theorem rebin_errors_quadrature (v : List ℚ) (m : ℚ) (mo : Option (List Bool))
    (r : Rebinner) (h : mkRebinner v m mo = .ok r) (x : List ℚ)
    (hx : x.length = v.length) :
    ∃ es : List ℝ, rebin_errors r x = some es ∧ es.length = r.n_bins ∧
      ∀ (i : ℕ) (hi : i < es.length),
        es.get ⟨i, hi⟩ =
          Real.sqrt (sliceSumSq x (r.starts.getD i 0) (r.stops.getD i 0)) := by
  obtain ⟨hml, hst, hsp, _, _⟩ := mkRebinner_ok_spec h
  have hlen : r.starts.length = r.stops.length := by
    rw [hst, hsp]
    exact (rebinnerBins_props v m r.mask).1
  refine ⟨(r.starts.zip r.stops).map fun p => Real.sqrt (sliceSumSq x p.1 p.2),
    ?_, ?_, ?_⟩
  · rw [rebin_errors, if_pos (hx.trans hml.symm)]
  · simp [List.length_zip, Rebinner.n_bins]
    omega
  · intro i hi
    have hi' : i < (r.starts.zip r.stops).length := by simpa using hi
    have h1 : i < r.starts.length := by
      rw [List.length_zip] at hi'
      omega
    have h2 : i < r.stops.length := by
      rw [List.length_zip] at hi'
      omega
    simp only [List.get_eq_getElem, List.getElem_map]
    rw [List.getElem_zip]
    rw [List.getD_eq_getElem r.starts 0 h1, List.getD_eq_getElem r.stops 0 h2]

/-- Witness for C6 at the no-mask example with companion
`[3, 4, 0, 5, 12, 8]`. -/
theorem rebin_errors_quadrature_witness :
    mkRebinner [1, 1, 1, 1, 1, 1] 2 none =
      .ok ⟨List.replicate 6 true, [0, 2, 4], [2, 4, 6], 2⟩ ∧
    (∃ es : List ℝ,
      rebin_errors ⟨List.replicate 6 true, [0, 2, 4], [2, 4, 6], 2⟩
          [3, 4, 0, 5, 12, 8] = some es ∧
      es.length = Rebinner.n_bins ⟨List.replicate 6 true, [0, 2, 4], [2, 4, 6], 2⟩ ∧
      ∀ (i : ℕ) (hi : i < es.length),
        es.get ⟨i, hi⟩ =
          Real.sqrt (sliceSumSq [3, 4, 0, 5, 12, 8]
            (([0, 2, 4] : List ℕ).getD i 0) (([2, 4, 6] : List ℕ).getD i 0))) :=
  ⟨eval_mk_nomask,
    rebin_errors_quadrature [1, 1, 1, 1, 1, 1] 2 none _ eval_mk_nomask
      [3, 4, 0, 5, 12, 8] (by norm_num)⟩

/-- C7 counterexample: constructing a `TemporalBinner` from the empty
arrival-time sequence succeeds — `__init__` only stores the sequence and
performs no validation at all. -/
theorem mkTemporalBinner_empty_ok :
    mkTemporalBinner ([] : List ℚ) = .ok ⟨[]⟩ := rfl

/-- C7 (amended): a `TemporalBinner` construction accepts every sequence,
the empty one included; only the binning methods fail on an empty
sequence, when they read `arrival_times[0]`. -/
theorem temporalBinner_construction_unvalidated :
    (∀ ts : List ℚ, mkTemporalBinner ts = .ok ⟨ts⟩) ∧
    (∀ dt : ℚ, bin_by_constanst ⟨[]⟩ dt = .error .emptyArrivalTimes) ∧
    (∀ (li_and_ma : ℕ → ℚ → ℚ) (li_and_ma_gauss : ℕ → ℚ → ℚ → ℚ)
      (background_getter : ℚ → ℚ → ℚ)
      (background_error_getter : Option (ℚ → ℚ → ℚ))
      (sigma_level : ℚ) (min_counts : ℕ),
      bin_by_significance li_and_ma li_and_ma_gauss background_getter
        background_error_getter sigma_level min_counts ⟨[]⟩ =
        .error .emptyArrivalTimes) :=
  ⟨fun _ => rfl, fun _ => rfl, fun _ _ _ _ _ _ => rfl⟩

/-- C10: for every valid construction, a companion sequence of matching
length whose masked total is zero makes `rebin` fail: the
sum-preservation check divides the rebinned total by the masked total,
which in the source's IEEE arithmetic yields `nan`/`inf` and a failed
assertion. -/
theorem rebin_zero_masked_total_fails (v : List ℚ) (m : ℚ)
    (mo : Option (List Bool)) (r : Rebinner) (h : mkRebinner v m mo = .ok r)
    (x : List ℚ) (hx : x.length = v.length)
    (h0 : maskedSum r.mask x = 0) : rebin r x = none := by
  obtain ⟨hml, _, _, _, _⟩ := mkRebinner_ok_spec h
  simp only [rebin]
  rw [if_pos (hx.trans hml.symm), if_neg (fun hc => hc.1 h0)]

/-- Witness for C10 at the no-mask example with the all-zero
companion sequence. -/
theorem rebin_zero_masked_total_fails_witness :
    mkRebinner [1, 1, 1, 1, 1, 1] 2 none =
      .ok ⟨List.replicate 6 true, [0, 2, 4], [2, 4, 6], 2⟩ ∧
    maskedSum (List.replicate 6 true) [0, 0, 0, 0, 0, 0] = 0 ∧
    rebin ⟨List.replicate 6 true, [0, 2, 4], [2, 4, 6], 2⟩ [0, 0, 0, 0, 0, 0] =
      none :=
  ⟨eval_mk_nomask, by norm_num [maskedSum, maskedSumUpTo, List.range_succ],
    rebin_zero_masked_total_fails [1, 1, 1, 1, 1, 1] 2 none _ eval_mk_nomask
      [0, 0, 0, 0, 0, 0] (by norm_num)
      (by norm_num [maskedSum, maskedSumUpTo, List.range_succ])⟩

/-- A non-triggering scan step leaves the accumulated bins unchanged
(only `total_counts` can change). -/
theorem sigStep_no_trigger (li_and_ma : ℕ → ℚ → ℚ)
    (li_and_ma_gauss : ℕ → ℚ → ℚ → ℚ) (background_getter : ℚ → ℚ → ℚ)
    (background_error_getter : Option (ℚ → ℚ → ℚ)) (sigma_level : ℚ)
    (min_counts : ℕ) (s : SigState) (t : ℚ)
    (h : ¬sigTrigger li_and_ma li_and_ma_gauss background_getter
      background_error_getter sigma_level min_counts s t) :
    (sigStep li_and_ma li_and_ma_gauss background_getter
        background_error_getter sigma_level min_counts s t).starts = s.starts ∧
    (sigStep li_and_ma li_and_ma_gauss background_getter
        background_error_getter sigma_level min_counts s t).stops = s.stops := by
  by_cases hc : s.total_counts + 1 < min_counts
  · simp only [sigStep]
    rw [if_pos hc]
    exact ⟨rfl, rfl⟩
  · have h1 : min_counts ≤ s.total_counts + 1 := by omega
    have h2 : ¬sigma_level ≤ computeSigma li_and_ma li_and_ma_gauss
        background_getter background_error_getter s.current_start t
        (s.total_counts + 1) := fun hs => h ⟨h1, hs⟩
    simp only [sigStep]
    rw [if_neg hc, if_neg h2]
    exact ⟨rfl, rfl⟩

/-- Scanning further arrival times that never trigger leaves the
accumulated bins unchanged. -/
theorem sig_fold_no_trigger (li_and_ma : ℕ → ℚ → ℚ)
    (li_and_ma_gauss : ℕ → ℚ → ℚ → ℚ) (background_getter : ℚ → ℚ → ℚ)
    (background_error_getter : Option (ℚ → ℚ → ℚ)) (sigma_level : ℚ)
    (min_counts : ℕ) (extra : List ℚ) (s : SigState)
    (hno : ∀ pre t post, extra = pre ++ t :: post →
      ¬sigTrigger li_and_ma li_and_ma_gauss background_getter
        background_error_getter sigma_level min_counts
        (pre.foldl (sigStep li_and_ma li_and_ma_gauss background_getter
          background_error_getter sigma_level min_counts) s) t) :
    (extra.foldl (sigStep li_and_ma li_and_ma_gauss background_getter
        background_error_getter sigma_level min_counts) s).starts = s.starts ∧
    (extra.foldl (sigStep li_and_ma li_and_ma_gauss background_getter
        background_error_getter sigma_level min_counts) s).stops = s.stops := by
  induction extra generalizing s with
  | nil => exact ⟨rfl, rfl⟩
  | cons t extra ih =>
    have h0 : ¬sigTrigger li_and_ma li_and_ma_gauss background_getter
        background_error_getter sigma_level min_counts s t := by
      have := hno [] t extra rfl
      simpa using this
    have hstep := sigStep_no_trigger li_and_ma li_and_ma_gauss background_getter
      background_error_getter sigma_level min_counts s t h0
    have hno' : ∀ pre t' post, extra = pre ++ t' :: post →
        ¬sigTrigger li_and_ma li_and_ma_gauss background_getter
          background_error_getter sigma_level min_counts
          (pre.foldl (sigStep li_and_ma li_and_ma_gauss background_getter
            background_error_getter sigma_level min_counts)
            (sigStep li_and_ma li_and_ma_gauss background_getter
              background_error_getter sigma_level min_counts s t)) t' := by
      intro pre t' post he
      have := hno (t :: pre) t' post (by rw [he]; rfl)
      rwa [List.foldl_cons] at this
    obtain ⟨ih1, ih2⟩ := ih _ hno'
    rw [List.foldl_cons]
    exact ⟨ih1.trans hstep.1, ih2.trans hstep.2⟩

/-- C8: in `bin_by_significance`, (i) whenever the incremented count has
reached `min_counts` and the computed significance reaches
`sigma_level` at arrival time `t`, the step appends the bin
`(current_start, t)`, sets `current_start = t` and resets
`total_counts = 0`; (ii) a non-triggering step appends no bin; and
(iii) the scan closes no bin at the end: extending the arrival times by
a suffix that never triggers leaves the returned bins exactly those of
the original scan — a trailing under-threshold window contributes
nothing. -/
theorem bin_by_significance_spec (li_and_ma : ℕ → ℚ → ℚ)
    (li_and_ma_gauss : ℕ → ℚ → ℚ → ℚ) (background_getter : ℚ → ℚ → ℚ)
    (background_error_getter : Option (ℚ → ℚ → ℚ)) (sigma_level : ℚ)
    (min_counts : ℕ) :
    (∀ (s : SigState) (t : ℚ),
      min_counts ≤ s.total_counts + 1 →
      sigma_level ≤ computeSigma li_and_ma li_and_ma_gauss background_getter
        background_error_getter s.current_start t (s.total_counts + 1) →
      sigStep li_and_ma li_and_ma_gauss background_getter
        background_error_getter sigma_level min_counts s t =
        ⟨s.starts ++ [s.current_start], s.stops ++ [t], 0, t⟩) ∧
    (∀ (s : SigState) (t : ℚ),
      ¬sigTrigger li_and_ma li_and_ma_gauss background_getter
        background_error_getter sigma_level min_counts s t →
      (sigStep li_and_ma li_and_ma_gauss background_getter
          background_error_getter sigma_level min_counts s t).starts = s.starts ∧
      (sigStep li_and_ma li_and_ma_gauss background_getter
          background_error_getter sigma_level min_counts s t).stops = s.stops) ∧
    (∀ (t0 : ℚ) (rest extra : List ℚ),
      (∀ pre t post, extra = pre ++ t :: post →
        ¬sigTrigger li_and_ma li_and_ma_gauss background_getter
          background_error_getter sigma_level min_counts
          (((t0 :: rest) ++ pre).foldl (sigStep li_and_ma li_and_ma_gauss
            background_getter background_error_getter sigma_level min_counts)
            ⟨[], [], 0, t0⟩) t) →
      bin_by_significance li_and_ma li_and_ma_gauss background_getter
        background_error_getter sigma_level min_counts ⟨(t0 :: rest) ++ extra⟩ =
      bin_by_significance li_and_ma li_and_ma_gauss background_getter
        background_error_getter sigma_level min_counts ⟨t0 :: rest⟩) := by
  refine ⟨?_, ?_, ?_⟩
  · intro s t h1 h2
    simp only [sigStep]
    rw [if_neg (by omega), if_pos h2]
  · exact fun s t h => sigStep_no_trigger li_and_ma li_and_ma_gauss
      background_getter background_error_getter sigma_level min_counts s t h
  · intro t0 rest extra hno
    have hno' : ∀ pre t post, extra = pre ++ t :: post →
        ¬sigTrigger li_and_ma li_and_ma_gauss background_getter
          background_error_getter sigma_level min_counts
          (pre.foldl (sigStep li_and_ma li_and_ma_gauss background_getter
            background_error_getter sigma_level min_counts)
            ((t0 :: rest).foldl (sigStep li_and_ma li_and_ma_gauss
              background_getter background_error_getter sigma_level min_counts)
              ⟨[], [], 0, t0⟩)) t := by
      intro pre t post he
      have := hno pre t post he
      rwa [List.foldl_append] at this
    obtain ⟨h1, h2⟩ := sig_fold_no_trigger li_and_ma li_and_ma_gauss
      background_getter background_error_getter sigma_level min_counts extra
      ((t0 :: rest).foldl (sigStep li_and_ma li_and_ma_gauss background_getter
        background_error_getter sigma_level min_counts) ⟨[], [], 0, t0⟩) hno'
    show Except.ok
        ((((t0 :: rest) ++ extra).foldl (sigStep li_and_ma li_and_ma_gauss
          background_getter background_error_getter sigma_level min_counts)
          ⟨[], [], 0, t0⟩).starts,
        (((t0 :: rest) ++ extra).foldl (sigStep li_and_ma li_and_ma_gauss
          background_getter background_error_getter sigma_level min_counts)
          ⟨[], [], 0, t0⟩).stops) = _
    rw [List.foldl_append, h1, h2]
    rfl

/-- Witness for C8: with an affine significance evaluator, a level of
`100` never reached, a single step appends no bin. -/
theorem bin_by_significance_spec_witness :
    (sigStep (fun n b => (n : ℚ) - b) (fun n b e => (n : ℚ) - b - e)
      (fun a b => b - a) none 100 1 ⟨[], [], 0, 0⟩ 1).starts = ([] : List ℚ) ∧
    (sigStep (fun n b => (n : ℚ) - b) (fun n b e => (n : ℚ) - b - e)
      (fun a b => b - a) none 100 1 ⟨[], [], 0, 0⟩ 1).stops = ([] : List ℚ) :=
  (bin_by_significance_spec (fun n b => (n : ℚ) - b)
    (fun n b e => (n : ℚ) - b - e) (fun a b => b - a) none 100 1).2.1
    ⟨[], [], 0, 0⟩ 1 (by norm_num [sigTrigger, computeSigma])

/-- C9: with a positive step `dt`, `bin_by_constanst` on a nonempty
arrival sequence returns starts `first, first + dt, first + 2·dt, …`,
exactly those values strictly below the last arrival time, and stops
equal to the starts shifted by `dt`; concretely, on `[0,1,5,9]` with
`dt = 2` it yields starts `[0,2,4,6,8]` and stops `[2,4,6,8,10]`. -/
theorem bin_by_constanst_spec (t0 : ℚ) (rest : List ℚ) (dt : ℚ) (hdt : 0 < dt) :
    ∃ starts stops : List ℚ,
      bin_by_constanst ⟨t0 :: rest⟩ dt = .ok (starts, stops) ∧
      (∀ k : ℕ, k < starts.length ↔
        t0 + (k : ℚ) * dt < (t0 :: rest).getLastD 0) ∧
      (∀ (k : ℕ) (hk : k < starts.length),
        starts.get ⟨k, hk⟩ = t0 + (k : ℚ) * dt) ∧
      (∀ s' ∈ starts, s' < (t0 :: rest).getLastD 0) ∧
      stops = starts.map (· + dt) ∧
      bin_by_constanst ⟨[0, 1, 5, 9]⟩ 2 =
        .ok ([0, 2, 4, 6, 8], [2, 4, 6, 8, 10]) := by
  have hiff : ∀ k : ℕ, k < (arange t0 ((t0 :: rest).getLastD 0) dt).length ↔
      t0 + (k : ℚ) * dt < (t0 :: rest).getLastD 0 := by
    intro k
    rw [arange, List.length_map, List.length_range]
    constructor
    · intro hk
      have hk' : (k : ℤ) < ⌈((t0 :: rest).getLastD 0 - t0) / dt⌉ :=
        Int.lt_toNat.mp hk
      have hq : (k : ℚ) < ((t0 :: rest).getLastD 0 - t0) / dt := by
        exact_mod_cast Int.lt_ceil.mp hk'
      have := (lt_div_iff₀ hdt).mp hq
      linarith
    · intro hk
      have hq : (k : ℚ) < ((t0 :: rest).getLastD 0 - t0) / dt :=
        (lt_div_iff₀ hdt).mpr (by linarith)
      have hk' : (k : ℤ) < ⌈((t0 :: rest).getLastD 0 - t0) / dt⌉ :=
        Int.lt_ceil.mpr (by exact_mod_cast hq)
      exact Int.lt_toNat.mpr hk'
  refine ⟨arange t0 ((t0 :: rest).getLastD 0) dt,
    (arange t0 ((t0 :: rest).getLastD 0) dt).map (· + dt), rfl, hiff, ?_, ?_, rfl, ?_⟩
  · intro k hk
    simp [arange]
  · intro s' hs'
    rw [arange, List.mem_map] at hs'
    obtain ⟨k, hk, rfl⟩ := hs'
    rw [List.mem_range] at hk
    have := (hiff k).mp (by rw [arange, List.length_map, List.length_range]; exact hk)
    exact this
  · have hceil : (⌈(9 : ℚ) / 2⌉ : ℤ) = 5 := by
      norm_num [Int.ceil_eq_iff]
    have h5 : (5 : ℤ).toNat = 5 := rfl
    simp only [bin_by_constanst, arange]
    norm_num [hceil, h5, List.range_succ]

/-- Witness for C9 at arrival times `[0,1,5,9]`, `dt = 2`. -/
theorem bin_by_constanst_spec_witness :
    bin_by_constanst ⟨[0, 1, 5, 9]⟩ 2 =
      .ok ([0, 2, 4, 6, 8], [2, 4, 6, 8, 10]) := by
  obtain ⟨s1, s2, -, -, -, -, -, hconc⟩ :=
    bin_by_constanst_spec 0 [1, 5, 9] 2 (by norm_num)
  exact hconc

end ThreeML
